import Mathlib

/-!
Verification of the sharun launcher (src/main.rs) against its design
specification.  The Rust code is shallowly embedded: strings are lists of
characters (`Str`), the string operations used by the code
(`str::replace`, `str::split`, `str::trim`, `str::contains`,
`str::starts_with`, `str::ends_with`, `Vec::join`) are modelled by
executable Lean functions with the same semantics, the filesystem tree
walked by `gen_library_path` is a finite tree (`FsEntry`), and the
fallible ELF probe returns an `Option`.
-/

/-- Rust strings are modelled as lists of characters. -/
abbrev Str : Type := List Char

/-- Model of `str::starts_with` on strings: is the first argument a
leading segment of the second? -/
def begins : Str → Str → Bool
  | [], _ => true
  | _ :: _, [] => false
  | a :: as, b :: bs => (a == b) && begins as bs

/-- Model of `str::contains` with a string argument: does the pattern
occur as a contiguous substring? -/
def hasSub (pat : Str) : Str → Bool
  | [] => List.isEmpty pat
  | c :: rest => begins pat (c :: rest) || hasSub pat rest

/-- Model of `str::ends_with`. -/
def endsWithStr (pat s : Str) : Bool := begins pat.reverse s.reverse

/-- Fuel-driven worker for `replaceL`; the fuel dominates the length of
the remaining input, so the recursion is structural and computable. -/
def replaceFuel (pat rep : Str) : Nat → Str → Str
  | 0, s => s
  | _ + 1, [] => []
  | fuel + 1, c :: rest =>
    if pat ≠ [] ∧ begins pat (c :: rest) = true then
      rep ++ replaceFuel pat rep fuel (List.drop (pat.length - 1) rest)
    else
      c :: replaceFuel pat rep fuel rest

/-- Model of Rust `str::replace`: replace every occurrence of `pat` by
`rep`, scanning left to right, non-overlapping.  (The code never calls
`replace` with an empty pattern.) -/
def replaceL (pat rep s : Str) : Str := replaceFuel pat rep s.length s

/-- Model of `str::split` on a single character: `splitC ':' "a:b" =
["a", "b"]`, `splitC ':' "" = [""]`. -/
def splitC (d : Char) : Str → List Str
  | [] => [[]]
  | c :: rest =>
    match splitC d rest with
    | [] => [[]]
    | r :: rs => if c = d then [] :: r :: rs else (c :: r) :: rs

/-- Model of `Vec::join` / `[String]::join`: concatenate with a
separator between consecutive elements. -/
def interC (sep : Str) : List Str → Str
  | [] => []
  | [l] => l
  | l :: ls => l ++ sep ++ interC sep ls

/-- ASCII whitespace recognised by the model of `str::trim` (the cache
and preload files produced and consumed by the code only ever contain
these whitespace characters). -/
def isWs (c : Char) : Bool := (c == ' ') || (c == '\n') || (c == '\t') || (c == '\r')

/-- Model of `str::trim`: strip leading and trailing whitespace. -/
def trimS (s : Str) : Str := ((s.dropWhile isWs).reverse.dropWhile isWs).reverse

/-! ### The filesystem tree walked by `gen_library_path`

`WalkDir::new(root)` enumerates the root directory and all entries below
it, depth first, each entry yielding its name and its parent directory.
The tree is mutual-inductive so that all functions over it are
structurally recursive (hence computable by the kernel). -/

mutual
/-- A filesystem entry below the library root: a plain file or a
directory with an ordered list of children. -/
inductive FsEntry where
  | file (name : Str)
  | dir (name : Str) (children : FsList)

/-- A list of sibling filesystem entries. -/
inductive FsList where
  | nil
  | cons (e : FsEntry) (es : FsList)
end

mutual
/-- The walk of one entry: the pairs (parent directory path, entry
name) produced by `WalkDir`, the entry itself first, then its
descendants. -/
def walkFrom (parent : Str) : FsEntry → List (Str × Str)
  | FsEntry.file n => [(parent, n)]
  | FsEntry.dir n cs => (parent, n) :: walkList (parent ++ '/' :: n) cs

/-- The walk of a list of sibling entries under a common parent. -/
def walkList (parent : Str) : FsList → List (Str × Str)
  | FsList.nil => []
  | FsList.cons e es => walkFrom parent e ++ walkList parent es
end

/-- The pattern ".so". -/
def dotSo : Str := ['.', 's', 'o']

/-- The pattern ".so.". -/
def dotSoDot : Str := ['.', 's', 'o', '.']

/-- The shared-object name test of `gen_library_path`:
`name.ends_with(".so") || name.contains(".so.")`. -/
def soName (n : Str) : Bool := endsWithStr dotSo n || hasSub dotSoDot n

/-- One step of the `for_each` accumulation in `gen_library_path`: an
entry whose name passes `soName`, whose parent is not the library root
itself and whose parent was not already recorded appends its parent.
(`parent.is_dir()` always holds for a walk entry's parent, and
`parent.to_str()` always succeeds in this model.) -/
def soFoldStep (libraryPath : Str) (acc : List Str) (e : Str × Str) : List Str :=
  if soName e.2 = true ∧ e.1 ≠ libraryPath ∧ e.1 ∉ acc then acc ++ [e.1] else acc

/-- The `new_paths` vector accumulated by `gen_library_path` over the
whole walk.  `rootParent` and `rootName` describe the root entry that
`WalkDir` yields first (`Path::parent` and the final path component of
the library root); `cs` are the root's children. -/
def gen_new_paths (libraryPath rootParent rootName : Str) (cs : FsList) : List Str :=
  ((rootParent, rootName) :: walkList libraryPath cs).foldl (soFoldStep libraryPath) []

/-- The marker character used in the cache file. -/
def plusC : Char := '+'

/-- The byte content that `gen_library_path` writes to `lib.path`:
`format!("+:{}", new_paths.join(":")).replace(":", "\n").replace(library_path, "+")`. -/
def gen_library_path (libraryPath rootParent rootName : Str) (cs : FsList) : Str :=
  replaceL libraryPath [plusC]
    (replaceL [':'] ['\n']
      (plusC :: ':' :: interC [':'] (gen_new_paths libraryPath rootParent rootName cs)))

/-- The cache-resolution step of `main`: the file content is trimmed,
newlines become `:` and the marker becomes the current library root
(`lib_path_data.trim()`, then `.replace("\n", ":").replace("+", &library_path)`). -/
def resolveCachePath (libraryPath content : Str) : Str :=
  replaceL [plusC] libraryPath (replaceL ['\n'] [':'] (trimS content))

/-! ### Path utilities -/

/-- Does the path start with the given character (`str::starts_with`
with a `char` argument)? -/
def startsC (c : Char) (s : Str) : Bool :=
  match s with
  | [] => false
  | a :: _ => a == c

/-- Model of `dirname` from src/main.rs: split on `/`, possibly insert
a leading `"."` (relative path) or `""` (root-level absolute path),
drop the last piece, join with `/`.  The single-segment branch is empty
in the source (its body is commented out), so a bare name yields `""`. -/
def dirname (path : Str) : Str :=
  let pieces := splitC '/' path
  let pieces :=
    if pieces.length = 1 ∨ path = [] then
      pieces
    else if ¬ startsC '/' path = true ∧ ¬ startsC '.' path = true ∧ ¬ startsC '~' path = true then
      ['.'] :: pieces
    else if pieces.length = 2 ∧ startsC '/' path = true then
      [] :: pieces
    else
      pieces
  interC ['/'] pieces.dropLast

/-! ### Environment prepending -/

/-- Model of `add_to_env` from src/main.rs, as a function from the old
value of the variable to its new value (`get_env_var` yields `""` for
an unset variable, so `[]` covers both unset and empty): if the old
value is empty, set; if the old value does not contain the new value as
a substring, prepend with a `:`; otherwise leave unchanged. -/
def add_to_env (oldVal newVal : Str) : Str :=
  if oldVal = [] then newVal
  else if ¬ hasSub newVal oldVal = true then newVal ++ ':' :: oldVal
  else oldVal

/-! ### Interpreter resolution -/

/-- The glibc loader name for the x86_64 build: "ld-linux-x86-64.so.2". -/
def ldGlibc : Str :=
  ['l', 'd', '-', 'l', 'i', 'n', 'u', 'x', '-', 'x', '8', '6', '-', '6', '4', '.', 's', 'o', '.', '2']

/-- The musl loader name for the x86_64 build: "ld-musl-x86_64.so.1". -/
def ldMusl : Str :=
  ['l', 'd', '-', 'm', 'u', 's', 'l', '-', 'x', '8', '6', '_', '6', '4', '.', 's', 'o', '.', '1']

/-- The legacy loader name for the x86_64 build: "ld-linux.so.2". -/
def ldLegacy : Str :=
  ['l', 'd', '-', 'l', 'i', 'n', 'u', 'x', '.', 's', 'o', '.', '2']

/-- The candidate list built by `get_interpreter`.  `none` models an
absent `SHARUN_LDNAME`; `some s` a present one.  A present but empty
override contributes nothing (the `!ldname.is_empty()` guard), and the
architecture-specific defaults (here the `x86_64` configuration of the
source) are only used when the variable is absent. -/
def interpreterCandidates (ldname : Option Str) : List Str :=
  match ldname with
  | some s => if s ≠ [] then [s] else []
  | none => [ldGlibc, ldMusl, ldLegacy]

/-- The candidate loop of `get_interpreter`: try each name joined under
the library root, return the first whose path exists.  `fs` is the
existence predicate of the ambient filesystem (`Path::exists`); loader
names are plain file names, so `Path::join` is path concatenation. -/
def findInterp (fs : Str → Bool) (libraryPath : Str) : List Str → Option Str
  | [] => none
  | i :: rest =>
    if fs (libraryPath ++ '/' :: i) = true then some (libraryPath ++ '/' :: i)
    else findInterp fs libraryPath rest

/-- Model of `get_interpreter` from src/main.rs. -/
def get_interpreter (ldname : Option Str) (fs : Str → Bool) (libraryPath : Str) : Option Str :=
  findInterp fs libraryPath (interpreterCandidates ldname)

/-! ### ELF class probe -/

/-- The four ELF magic bytes `\x7fELF`. -/
def elfMagic : List Nat := [0x7f, 0x45, 0x4c, 0x46]

/-- Model of `is_elf32` from src/main.rs.  The input is the byte
content of the target file (`none` when `File::open` fails); reading
the 5-byte header fails when the file is shorter (`read_exact`).  A
file whose first four bytes are not the ELF magic yields `some false`
(it is not reported as an error); otherwise the fifth byte selects the
class (1 = ELF32). -/
def is_elf32 (file : Option (List Nat)) : Option Bool :=
  match file with
  | none => none
  | some bytes =>
    if bytes.length < 5 then none
    else if bytes.take 4 ≠ elfMagic then some false
    else some (decide (bytes.getD 4 0 = 1))

/-! ### The launch pipeline of `main`

`runLaunch` models the tail of `main` (after launch-mode resolution):
the ELF class probe selects the 32-bit or 64-bit library root, the
interpreter is resolved (failure prints "Interpreter not found!" and
exits 1 before any exec), the library search path is resolved from the
cache file, the interpreter argument vector is built, and control is
transferred through one of the two exec backends selected by the
`pydata` ELF section probe.  Environment-variable synthesis, the
working-directory override and the lazy cache regeneration do not
affect the modelled observables and are omitted. -/

/-- The two process-replacement backends of the execution engine. -/
inductive ExecBackend where
  | execve
  | userland
deriving DecidableEq

/-- The observable outcome of the modelled tail of `main`. -/
inductive MainResult where
  | fatalElfClass
  | fatalInterpreterNotFound
  | exec (backend : ExecBackend) (argv : List Str)
deriving DecidableEq

/-- The inputs of the modelled tail of `main`. -/
structure LaunchEnv where
  ldname : Option Str
  fsExists : Str → Bool
  sharedLib : Str
  sharedLib32 : Str
  binPath : Str
  binBytes : Option (List Nat)
  cacheContent : Option Str
  preloadContent : Option Str
  hasPydata : Bool
  arg0Path : Str
  execArgs : List Str

/-- The literal "--library-path". -/
def libraryPathFlag : Str :=
  ['-', '-', 'l', 'i', 'b', 'r', 'a', 'r', 'y', '-', 'p', 'a', 't', 'h']

/-- The literal "--argv0". -/
def argv0Flag : Str := ['-', '-', 'a', 'r', 'g', 'v', '0']

/-- The literal "--preload". -/
def preloadFlag : Str := ['-', '-', 'p', 'r', 'e', 'l', 'o', 'a', 'd']

/-- The `--preload` portion of the argument vector: when a `.preload`
file exists its content is trimmed, split into lines, each line
trimmed, and the entries are passed space-joined after `--preload`
(the split of any string is non-empty, so the `is_empty` guard of the
source never suppresses the flag; it is kept for fidelity). -/
def preloadArgs (preloadContent : Option Str) : List Str :=
  match preloadContent with
  | some data =>
    let preload := (splitC '\n' (trimS data)).map trimS
    if preload ≠ [] then [preloadFlag, interC [' '] preload] else []
  | none => []

/-- The final library search path: the cache content resolved against
the chosen root when `lib.path` is readable, the bare root otherwise. -/
def launchLibPath (libraryPath : Str) (cacheContent : Option Str) : Str :=
  match cacheContent with
  | some data => resolveCachePath libraryPath data
  | none => libraryPath

/-- The interpreter argument vector built in `main`: interpreter path,
`--library-path`, search path, `--argv0`, the spoofed argv0 (the
target's own path for a `pydata` binary, the caller's invocation path
otherwise), the optional `--preload` pair, the target path, and the
remaining caller arguments. -/
def buildInterpreterArgs (interp libPath arg0Path binPath : Str)
    (preloadContent : Option Str) (isPydata : Bool) (execArgs : List Str) : List Str :=
  ([interp, libraryPathFlag, libPath, argv0Flag]
    ++ [if isPydata then binPath else arg0Path]
    ++ preloadArgs preloadContent
    ++ [binPath])
    ++ execArgs

/-- The backend choice of the execution engine: the raw `execve`
system call for a `pydata` (frozen-interpreter) binary, the
`userland_execve` emulated exec otherwise. -/
def chooseBackend (isPydata : Bool) : ExecBackend :=
  if isPydata then ExecBackend.execve else ExecBackend.userland

/-- The modelled tail of `main` (lines 385-681 of src/main.rs). -/
def runLaunch (e : LaunchEnv) : MainResult :=
  match is_elf32 e.binBytes with
  | none => MainResult.fatalElfClass
  | some isElf32Bin =>
    let libraryPath := if isElf32Bin then e.sharedLib32 else e.sharedLib
    match get_interpreter e.ldname e.fsExists libraryPath with
    | none => MainResult.fatalInterpreterNotFound
    | some interp =>
      MainResult.exec (chooseBackend e.hasPydata)
        (buildInterpreterArgs interp (launchLibPath libraryPath e.cacheContent)
          e.arg0Path e.binPath e.preloadContent e.hasPydata e.execArgs)

/-! ### Basic lemmas about the string model -/

theorem begins_append_self (p t : Str) : begins p (p ++ t) = true := by
  induction p with
  | nil => rfl
  | cons a as ih => simp [begins, ih]

theorem begins_eq_append {p s : Str} (h : begins p s = true) :
    s = p ++ s.drop p.length := by
  induction p generalizing s with
  | nil => simp
  | cons a as ih =>
    cases s with
    | nil => simp [begins] at h
    | cons b bs =>
      simp [begins] at h
      obtain ⟨rfl, h2⟩ := h
      simpa using ih h2

theorem begins_le_length {p s : Str} (h : begins p s = true) : p.length ≤ s.length := by
  have := begins_eq_append h
  rw [this]
  simp

theorem begins_append_extend {p s : Str} (u : Str) (h : begins p s = true) :
    begins p (s ++ u) = true := by
  rw [begins_eq_append h, List.append_assoc]
  exact begins_append_self p _

theorem begins_head_ne {a b : Char} {p t : Str} (h : a ≠ b) :
    begins (a :: p) (b :: t) = false := by
  simp [begins, h]

theorem begins_nil_right {p : Str} (h : p ≠ []) : begins p [] = false := by
  cases p with
  | nil => exact absurd rfl h
  | cons a as => rfl

theorem hasSub_nil (p : Str) : hasSub p [] = List.isEmpty p := rfl

theorem hasSub_cons (p : Str) (c : Char) (t : Str) :
    hasSub p (c :: t) = (begins p (c :: t) || hasSub p t) := rfl

theorem hasSub_of_begins {p s : Str} (h : begins p s = true) : hasSub p s = true := by
  cases s with
  | nil =>
    cases p with
    | nil => rfl
    | cons a as => simp [begins] at h
  | cons c t => simp [hasSub_cons, h]

/-! ### Unfolding equations for `replaceL` -/

theorem replaceFuel_nil (pat rep : Str) (f : Nat) : replaceFuel pat rep f [] = [] := by
  cases f <;> rfl

theorem replaceFuel_irrel (pat rep : Str) :
    ∀ f g s, s.length ≤ f → s.length ≤ g →
      replaceFuel pat rep f s = replaceFuel pat rep g s := by
  intro f
  induction f with
  | zero =>
    intro g s hf _
    have : s = [] := List.eq_nil_of_length_eq_zero (Nat.le_zero.mp hf)
    subst this
    simp [replaceFuel_nil]
  | succ f ih =>
    intro g s hf hg
    cases s with
    | nil => simp [replaceFuel_nil]
    | cons c rest =>
      cases g with
      | zero => simp at hg
      | succ g =>
        show replaceFuel pat rep (f + 1) (c :: rest) = replaceFuel pat rep (g + 1) (c :: rest)
        simp only [replaceFuel]
        by_cases hcond : pat ≠ [] ∧ begins pat (c :: rest) = true
        · simp only [if_pos hcond]
          congr 1
          apply ih
          · calc (List.drop (pat.length - 1) rest).length ≤ rest.length := by
                  rw [List.length_drop]; exact Nat.sub_le _ _
              _ ≤ f := Nat.le_of_succ_le_succ hf
          · calc (List.drop (pat.length - 1) rest).length ≤ rest.length := by
                  rw [List.length_drop]; exact Nat.sub_le _ _
              _ ≤ g := Nat.le_of_succ_le_succ hg
        · simp only [if_neg hcond]
          congr 1
          exact ih g rest (Nat.le_of_succ_le_succ hf) (Nat.le_of_succ_le_succ hg)

theorem replaceL_nil (pat rep : Str) : replaceL pat rep [] = [] := rfl

theorem replaceL_skip {pat : Str} (rep : Str) {c : Char} {rest : Str}
    (h : begins pat (c :: rest) = false) :
    replaceL pat rep (c :: rest) = c :: replaceL pat rep rest := by
  show replaceFuel pat rep (rest.length + 1) (c :: rest) = _
  simp only [replaceFuel]
  rw [if_neg]
  · rfl
  · rintro ⟨-, hb⟩
    rw [h] at hb
    exact Bool.false_ne_true hb

theorem replaceL_match {pat : Str} (rep : Str) {s : Str}
    (hp : pat ≠ []) (hb : begins pat s = true) :
    replaceL pat rep s = rep ++ replaceL pat rep (s.drop pat.length) := by
  cases s with
  | nil =>
    rw [begins_nil_right hp] at hb
    exact absurd hb Bool.false_ne_true
  | cons c rest =>
    show replaceFuel pat rep (rest.length + 1) (c :: rest) = _
    simp only [replaceFuel]
    rw [if_pos ⟨hp, hb⟩]
    congr 1
    have hL : 1 ≤ pat.length := by
      cases pat with
      | nil => exact absurd rfl hp
      | cons a as => simp
    have hdrop : List.drop pat.length (c :: rest) = List.drop (pat.length - 1) rest := by
      obtain ⟨k, hk⟩ : ∃ k, pat.length = k + 1 :=
        ⟨pat.length - 1, (Nat.succ_pred_eq_of_pos hL).symm⟩
      rw [hk, List.drop_succ_cons]
      congr 1
    rw [show replaceL pat rep (List.drop pat.length (c :: rest))
          = replaceFuel pat rep (List.drop pat.length (c :: rest)).length
              (List.drop pat.length (c :: rest)) from rfl, hdrop]
    have hlen : (List.drop (pat.length - 1) rest).length ≤ rest.length := by
      rw [List.length_drop]; exact Nat.sub_le _ _
    exact replaceFuel_irrel pat rep rest.length _ _ hlen (Nat.le_refl _)

/-! ### Replacement lemmas -/

theorem replace_not_contains {pat : Str} (rep : Str) :
    ∀ s, hasSub pat s = false → replaceL pat rep s = s := by
  intro s
  induction s with
  | nil => intro _; exact replaceL_nil pat rep
  | cons c t ih =>
    intro h
    rw [hasSub_cons] at h
    simp only [Bool.or_eq_false_iff] at h
    rw [replaceL_skip rep h.1, ih h.2]

theorem begins_left {pat : Str} {d : Char} (hd : d ∉ pat) :
    ∀ {l t : Str}, begins pat (l ++ d :: t) = true → begins pat l = true := by
  induction pat with
  | nil => intro l t _; rfl
  | cons p ps ih =>
    intro l t h
    cases l with
    | nil =>
      simp only [List.nil_append, begins, Bool.and_eq_true, beq_iff_eq] at h
      exact absurd (h.1 ▸ List.mem_cons_self p ps) hd
    | cons x l' =>
      simp only [List.cons_append, begins, Bool.and_eq_true, beq_iff_eq] at h ⊢
      exact ⟨h.1, ih (fun hmem => hd (List.mem_cons_of_mem _ hmem)) h.2⟩

theorem replace_mid_aux (pat rep : Str) (d : Char) (hp : pat ≠ []) (hd : d ∉ pat) :
    ∀ n l t, l.length ≤ n →
      replaceL pat rep (l ++ d :: t) = replaceL pat rep l ++ d :: replaceL pat rep t := by
  intro n
  induction n with
  | zero =>
    intro l t hl
    have : l = [] := List.eq_nil_of_length_eq_zero (Nat.le_zero.mp hl)
    subst this
    have hb : begins pat (d :: t) = false := by
      cases pat with
      | nil => exact absurd rfl hp
      | cons p ps =>
        apply begins_head_ne
        intro hpd
        exact hd (hpd ▸ List.mem_cons_self p ps)
    rw [List.nil_append, replaceL_skip rep hb, replaceL_nil, List.nil_append]
  | succ n ih =>
    intro l t hl
    cases l with
    | nil =>
      have hb : begins pat (d :: t) = false := by
        cases pat with
        | nil => exact absurd rfl hp
        | cons p ps =>
          apply begins_head_ne
          intro hpd
          exact hd (hpd ▸ List.mem_cons_self p ps)
      rw [List.nil_append, replaceL_skip rep hb, replaceL_nil, List.nil_append]
    | cons c l' =>
      by_cases hb : begins pat ((c :: l') ++ d :: t) = true
      · have hbl : begins pat (c :: l') = true := begins_left hd hb
        rw [replaceL_match rep hp hb, replaceL_match rep hp hbl]
        have hlen : pat.length ≤ (c :: l').length := begins_le_length hbl
        rw [List.drop_append_of_le_length hlen]
        rw [ih (List.drop pat.length (c :: l')) t ?hlen2]
        case hlen2 =>
          have h1 : 1 ≤ pat.length := by
            cases pat with
            | nil => exact absurd rfl hp
            | cons a as => simp
          rw [List.length_drop]
          simp only [List.length_cons] at hl ⊢
          omega
        rw [List.append_assoc]
      · have hb' : begins pat ((c :: l') ++ d :: t) = false := by
          simpa using hb
        have hbl : begins pat (c :: l') = false := by
          cases h2 : begins pat (c :: l')
          · rfl
          · have h3 := begins_append_extend (d :: t) h2
            rw [h3] at hb'
            exact Bool.noConfusion hb'
        rw [show (c :: l') ++ d :: t = c :: (l' ++ d :: t) from rfl,
          replaceL_skip rep (by simpa using hb'), replaceL_skip rep hbl,
          ih l' t (by simpa using Nat.le_of_succ_le_succ (by simpa using hl))]
        rfl

theorem replace_mid (pat rep : Str) (d : Char) (hp : pat ≠ []) (hd : d ∉ pat) (l t : Str) :
    replaceL pat rep (l ++ d :: t) = replaceL pat rep l ++ d :: replaceL pat rep t :=
  replace_mid_aux pat rep d hp hd l.length l t (Nat.le_refl _)

theorem interC_nil (sep : Str) : interC sep [] = [] := rfl

theorem interC_single (sep l : Str) : interC sep [l] = l := rfl

theorem interC_cons₂ (sep l : Str) {ls : List Str} (h : ls ≠ []) :
    interC sep (l :: ls) = l ++ sep ++ interC sep ls := by
  cases ls with
  | nil => exact absurd rfl h
  | cons x xs => rfl

theorem replace_intercalate (pat rep : Str) (d : Char) (hp : pat ≠ []) (hd : d ∉ pat) :
    ∀ lines : List Str,
      replaceL pat rep (interC [d] lines) = interC [d] (lines.map (replaceL pat rep)) := by
  intro lines
  induction lines with
  | nil => simp [interC_nil, replaceL_nil]
  | cons l ls ih =>
    cases ls with
    | nil => simp [interC_single]
    | cons x xs =>
      rw [interC_cons₂ [d] l (by simp), List.append_assoc, List.singleton_append,
        replace_mid pat rep d hp hd, List.map_cons,
        interC_cons₂ [d] (replaceL pat rep l) (by simp), ih,
        List.append_assoc, List.singleton_append]

theorem hasSub_single_eq_false {d : Char} {l : Str} (h : d ∉ l) : hasSub [d] l = false := by
  induction l with
  | nil => rfl
  | cons c t ih =>
    rw [hasSub_cons]
    have h1 : begins [d] (c :: t) = false := by
      apply begins_head_ne
      intro hdc
      exact h (hdc ▸ List.mem_cons_self c t)
    rw [h1, ih (fun hm => h (List.mem_cons_of_mem _ hm))]
    rfl

theorem replace_no_occ {d : Char} (e : Str) {l : Str} (h : d ∉ l) :
    replaceL [d] e l = l :=
  replace_not_contains e l (hasSub_single_eq_false h)

theorem replace_first_sep {d : Char} (e : Str) :
    ∀ {l : Str}, d ∉ l → ∀ t, replaceL [d] e (l ++ d :: t) = l ++ e ++ replaceL [d] e t := by
  intro l
  induction l with
  | nil =>
    intro _ t
    have hb : begins [d] (d :: t) = true := by simp [begins]
    rw [List.nil_append, replaceL_match e (by simp) hb]
    simp
  | cons c l' ih =>
    intro h t
    have hcd : d ≠ c := fun hdc => h (hdc ▸ List.mem_cons_self c l')
    have hb : begins [d] ((c :: l') ++ d :: t) = false := begins_head_ne hcd
    rw [show (c :: l') ++ d :: t = c :: (l' ++ d :: t) from rfl] at hb ⊢
    rw [replaceL_skip e hb, ih (fun hm => h (List.mem_cons_of_mem _ hm)) t]
    rfl

theorem replace_sep {d : Char} (e : Str) :
    ∀ lines : List Str, (∀ l ∈ lines, d ∉ l) →
      replaceL [d] e (interC [d] lines) = interC e lines := by
  intro lines
  induction lines with
  | nil => simp [interC_nil, replaceL_nil]
  | cons l ls ih =>
    intro h
    cases ls with
    | nil =>
      rw [interC_single, interC_single]
      exact replace_no_occ e (h l (List.mem_cons_self _ _))
    | cons x xs =>
      rw [interC_cons₂ [d] l (by simp), List.append_assoc, List.singleton_append,
        replace_first_sep e (h l (List.mem_cons_self _ _)) _,
        ih (fun y hy => h y (List.mem_cons_of_mem _ hy)),
        interC_cons₂ e l (by simp)]

theorem replace_roundtrip_aux (pat : Str) (m : Char) (hp : pat ≠ []) (hm : m ∉ pat) :
    ∀ n s, s.length ≤ n → m ∉ s →
      replaceL [m] pat (replaceL pat [m] s) = s := by
  intro n
  induction n with
  | zero =>
    intro s hl _
    have : s = [] := List.eq_nil_of_length_eq_zero (Nat.le_zero.mp hl)
    subst this
    rw [replaceL_nil, replaceL_nil]
  | succ n ih =>
    intro s hl hms
    cases s with
    | nil => rw [replaceL_nil, replaceL_nil]
    | cons c rest =>
      by_cases hb : begins pat (c :: rest) = true
      · rw [replaceL_match [m] hp hb]
        have hbm : begins [m] ([m] ++ replaceL pat [m] ((c :: rest).drop pat.length)) = true :=
          begins_append_self [m] _
        rw [List.singleton_append] at hbm ⊢
        rw [replaceL_match pat (by simp) hbm]
        simp only [List.length_cons, List.length_nil, List.drop_succ_cons, List.drop_zero]
        have h1 : 1 ≤ pat.length := by
          cases pat with
          | nil => exact absurd rfl hp
          | cons a as => simp
        have hdl : ((c :: rest).drop pat.length).length ≤ n := by
          rw [List.length_drop]
          simp only [List.length_cons] at hl ⊢
          omega
        have hdm : m ∉ (c :: rest).drop pat.length :=
          fun hmem => hms (List.mem_of_mem_drop hmem)
        rw [ih _ hdl hdm]
        exact (begins_eq_append hb).symm
      · have hb' : begins pat (c :: rest) = false := by simpa using hb
        rw [replaceL_skip [m] hb']
        have hcm : m ≠ c := fun hmc => hms (hmc ▸ List.mem_cons_self c rest)
        have hbm : begins [m] (c :: replaceL pat [m] rest) = false := begins_head_ne hcm
        rw [replaceL_skip pat hbm,
          ih rest (Nat.le_of_succ_le_succ (by simpa using hl))
            (fun hm2 => hms (List.mem_cons_of_mem _ hm2))]

theorem replace_roundtrip (pat : Str) (m : Char) (hp : pat ≠ []) (hm : m ∉ pat)
    (s : Str) (hms : m ∉ s) : replaceL [m] pat (replaceL pat [m] s) = s :=
  replace_roundtrip_aux pat m hp hm s.length s (Nat.le_refl _) hms

theorem replaceFuel_empty_pat (rep : Str) : ∀ f s, replaceFuel [] rep f s = s := by
  intro f
  induction f with
  | zero => intro s; rfl
  | succ f ih =>
    intro s
    cases s with
    | nil => rfl
    | cons c rest =>
      show replaceFuel [] rep (f + 1) (c :: rest) = c :: rest
      simp only [replaceFuel]
      rw [if_neg (by simp)]
      rw [ih rest]

theorem replaceL_empty_pat (rep s : Str) : replaceL [] rep s = s :=
  replaceFuel_empty_pat rep s.length s

theorem mem_replace_aux (pat rep : Str) {c : Char} :
    ∀ n s, s.length ≤ n → c ∈ replaceL pat rep s → c ∈ s ∨ c ∈ rep := by
  intro n
  induction n with
  | zero =>
    intro s hl hc
    have : s = [] := List.eq_nil_of_length_eq_zero (Nat.le_zero.mp hl)
    subst this
    rw [replaceL_nil] at hc
    exact absurd hc (List.not_mem_nil c)
  | succ n ih =>
    intro s hl hc
    cases s with
    | nil =>
      rw [replaceL_nil] at hc
      exact absurd hc (List.not_mem_nil c)
    | cons a rest =>
      by_cases hpe : pat = []
      · subst hpe
        rw [replaceL_empty_pat rep (a :: rest)] at hc
        exact Or.inl hc
      · by_cases hb : begins pat (a :: rest) = true
        · rw [replaceL_match rep hpe hb, List.mem_append] at hc
          rcases hc with hc | hc
          · exact Or.inr hc
          · have hdl : ((a :: rest).drop pat.length).length ≤ n := by
              have h1 : 1 ≤ pat.length := by
                cases pat with
                | nil => exact absurd rfl hpe
                | cons x xs => simp
              rw [List.length_drop]
              simp only [List.length_cons] at hl ⊢
              omega
            rcases ih _ hdl hc with hc2 | hc2
            · exact Or.inl (List.mem_of_mem_drop hc2)
            · exact Or.inr hc2
        · have hb' : begins pat (a :: rest) = false := by simpa using hb
          rw [replaceL_skip rep hb', List.mem_cons] at hc
          rcases hc with hc | hc
          · exact Or.inl (hc ▸ List.mem_cons_self a rest)
          · rcases ih rest (Nat.le_of_succ_le_succ (by simpa using hl)) hc with hc2 | hc2
            · exact Or.inl (List.mem_cons_of_mem _ hc2)
            · exact Or.inr hc2

theorem mem_replace {pat rep : Str} {c : Char} {s : Str}
    (h : c ∈ replaceL pat rep s) : c ∈ s ∨ c ∈ rep :=
  mem_replace_aux pat rep s.length s (Nat.le_refl _) h

theorem replace_ne_nil {pat : Str} {rep : Str} (hrep : rep ≠ []) {s : Str} (hs : s ≠ []) :
    replaceL pat rep s ≠ [] := by
  cases s with
  | nil => exact absurd rfl hs
  | cons c rest =>
    show replaceFuel pat rep (rest.length + 1) (c :: rest) ≠ []
    simp only [replaceFuel]
    by_cases hcond : pat ≠ [] ∧ begins pat (c :: rest) = true
    · rw [if_pos hcond]
      simp [hrep]
    · rw [if_neg hcond]
      simp

/-! ### Trim lemmas -/

theorem trim_of_ends {s : Str} {a b : Char}
    (ha : s.head? = some a) (hwa : isWs a = false)
    (hb : s.getLast? = some b) (hwb : isWs b = false) : trimS s = s := by
  unfold trimS
  have h1 : s.dropWhile isWs = s := by
    cases s with
    | nil => simp at ha
    | cons x t =>
      have : x = a := by simpa using ha
      subst this
      rw [List.dropWhile_cons, hwa]
      simp
  rw [h1]
  have h2 : s.reverse.dropWhile isWs = s.reverse := by
    have hrev : s.reverse.head? = some b := by rw [List.head?_reverse, hb]
    cases hr : s.reverse with
    | nil => rfl
    | cons x t =>
      rw [hr] at hrev
      have : x = b := by simpa using hrev
      subst this
      rw [List.dropWhile_cons, hwb]
      simp
  rw [h2, List.reverse_reverse]

/-! ### Split lemmas -/

theorem splitC_ne_nil (d : Char) (s : Str) : splitC d s ≠ [] := by
  induction s with
  | nil => simp [splitC]
  | cons c rest ih =>
    simp only [splitC]
    cases h : splitC d rest with
    | nil => exact absurd h ih
    | cons r rs =>
      by_cases hc : c = d
      · simp [hc]
      · simp [hc]

theorem splitC_no_d {d : Char} : ∀ {l : Str}, d ∉ l → splitC d l = [l] := by
  intro l
  induction l with
  | nil => intro _; rfl
  | cons c rest ih =>
    intro h
    have hcd : c ≠ d := fun hcd => h (hcd ▸ List.mem_cons_self c rest)
    simp only [splitC]
    rw [ih (fun hm => h (List.mem_cons_of_mem _ hm))]
    simp [hcd]

theorem splitC_sep {d : Char} :
    ∀ {l : Str}, d ∉ l → ∀ t, splitC d (l ++ d :: t) = l :: splitC d t := by
  intro l
  induction l with
  | nil =>
    intro _ t
    rw [List.nil_append]
    simp only [splitC]
    cases h : splitC d t with
    | nil => exact absurd h (splitC_ne_nil d t)
    | cons r rs => simp
  | cons c rest ih =>
    intro h t
    have hcd : c ≠ d := fun hcd => h (hcd ▸ List.mem_cons_self c rest)
    rw [show (c :: rest) ++ d :: t = c :: (rest ++ d :: t) from rfl]
    simp only [splitC]
    rw [ih (fun hm => h (List.mem_cons_of_mem _ hm)) t]
    simp [hcd]

theorem splitC_interC {d : Char} :
    ∀ lines : List Str, lines ≠ [] → (∀ l ∈ lines, d ∉ l) →
      splitC d (interC [d] lines) = lines := by
  intro lines
  induction lines with
  | nil => intro h _; exact absurd rfl h
  | cons l ls ih =>
    intro _ h
    cases ls with
    | nil =>
      rw [interC_single]
      exact splitC_no_d (h l (List.mem_cons_self _ _))
    | cons x xs =>
      rw [interC_cons₂ [d] l (by simp), List.append_assoc, List.singleton_append,
        splitC_sep (h l (List.mem_cons_self _ _)) _,
        ih (by simp) (fun y hy => h y (List.mem_cons_of_mem _ hy))]

/-! ### Head and last of joined line lists -/

theorem interC_concat_ne_nil {sep : Str} (hsep : sep ≠ []) :
    ∀ (ls : List Str) {l : Str}, l ≠ [] → interC sep (ls ++ [l]) ≠ [] := by
  intro ls
  cases ls with
  | nil =>
    intro l hl
    simpa [interC_single] using hl
  | cons x ls' =>
    intro l hl
    rw [List.cons_append, interC_cons₂ sep x (by simp)]
    simp only [ne_eq, List.append_eq_nil, not_and]
    intro h
    exact absurd h.2 hsep

theorem getLast?_interC {sep : Str} (hsep : sep ≠ []) :
    ∀ (ls : List Str) {l : Str}, l ≠ [] →
      (interC sep (ls ++ [l])).getLast? = l.getLast? := by
  intro ls
  induction ls with
  | nil => intro l _; rw [List.nil_append, interC_single]
  | cons x ls' ih =>
    intro l hl
    rw [List.cons_append, interC_cons₂ sep x (by simp), List.append_assoc,
      List.getLast?_append_of_ne_nil _ (by
        simp only [ne_eq, List.append_eq_nil, not_and]
        intro h
        exact absurd h hsep),
      List.getLast?_append_of_ne_nil _ (interC_concat_ne_nil hsep ls' hl)]
    exact ih hl

theorem head?_interC (sep : Str) :
    ∀ {l : Str} (ls : List Str), l ≠ [] → (interC sep (l :: ls)).head? = l.head? := by
  intro l ls hl
  cases ls with
  | nil => rw [interC_single]
  | cons x xs =>
    rw [interC_cons₂ sep l (by simp)]
    cases l with
    | nil => exact absurd rfl hl
    | cons a t => rfl

theorem getLast?_mem_of_ne_nil {l : Str} (h : l ≠ []) :
    ∃ b, l.getLast? = some b ∧ b ∈ l := by
  cases hr : l.reverse with
  | nil => exact absurd (by simpa using congrArg List.reverse hr) h
  | cons b t =>
    refine ⟨b, ?_, ?_⟩
    · rw [← List.head?_reverse, hr]
      rfl
    · rw [← List.mem_reverse, hr]
      exact List.mem_cons_self b t

theorem trim_interC (lines : List Str) (hne : lines ≠ [])
    (h : ∀ l ∈ lines, l ≠ [] ∧ ∀ c ∈ l, isWs c = false) :
    trimS (interC ['\n'] lines) = interC ['\n'] lines := by
  obtain ⟨ls, last, rfl⟩ : ∃ ls last, lines = ls ++ [last] := by
    rcases List.eq_nil_or_concat lines with h0 | ⟨ls, last, h0⟩
    · exact absurd h0 hne
    · exact ⟨ls, last, by simpa [List.concat_eq_append] using h0⟩
  have hlast : last ∈ ls ++ [last] := List.mem_append_right _ (List.mem_cons_self _ _)
  obtain ⟨hl_ne, hl_ws⟩ := h last hlast
  obtain ⟨b, hb, hbm⟩ := getLast?_mem_of_ne_nil hl_ne
  have hfirst : ∃ fst rest, ls ++ [last] = fst :: rest := by
    cases ls with
    | nil => exact ⟨last, [], rfl⟩
    | cons x xs => exact ⟨x, xs ++ [last], rfl⟩
  obtain ⟨fst, rest, heq⟩ := hfirst
  have hfst_mem : fst ∈ ls ++ [last] := heq ▸ List.mem_cons_self fst rest
  obtain ⟨hf_ne, hf_ws⟩ := h fst hfst_mem
  obtain ⟨a, ha⟩ : ∃ a t, fst = a :: t := by
    cases fst with
    | nil => exact absurd rfl hf_ne
    | cons a t => exact ⟨a, t, rfl⟩
  obtain ⟨t, rfl⟩ := ha
  apply trim_of_ends (a := a) (b := b)
  · rw [heq, head?_interC ['\n'] rest (by simp)]
    rfl
  · exact hf_ws a (List.mem_cons_self a t)
  · rw [getLast?_interC (by simp) ls hl_ne]
    exact hb
  · exact hl_ws b hbm

/-! ### Well-formedness of names and roots

The cache format reserves `:` (the join separator), the newline (the
line separator), `+` (the root marker) and leading/trailing whitespace
(stripped by `trim`).  A well-formed tree keeps these characters out of
entry names; a well-formed library root is an absolute path avoiding
them as well. -/

/-- A character that does not collide with the cache-file syntax. -/
def plainChar (c : Char) : Bool := !((c == ':') || (c == '\n') || (c == plusC) || isWs c)

/-- A well-formed entry name: non-empty, no `/`, no cache-syntax
character. -/
def goodName (n : Str) : Bool := (!n.isEmpty) && n.all (fun c => plainChar c && !(c == '/'))

/-- A well-formed library-root path: absolute and free of cache-syntax
characters. -/
def goodRoot (r : Str) : Bool := startsC '/' r && r.all plainChar

mutual
/-- Every name in the entry is well-formed. -/
def goodTree : FsEntry → Bool
  | FsEntry.file n => goodName n
  | FsEntry.dir n cs => goodName n && goodList cs

/-- Every name in the sibling list is well-formed. -/
def goodList : FsList → Bool
  | FsList.nil => true
  | FsList.cons e es => goodTree e && goodList es
end

theorem goodRoot_ne_nil {r : Str} (h : goodRoot r = true) : r ≠ [] := by
  cases r with
  | nil => simp [goodRoot, startsC] at h
  | cons a t => simp

theorem goodRoot_head {r : Str} (h : goodRoot r = true) :
    ∃ t, r = '/' :: t := by
  cases r with
  | nil => simp [goodRoot, startsC] at h
  | cons a t =>
    simp only [goodRoot, startsC, Bool.and_eq_true, beq_iff_eq] at h
    exact ⟨t, by rw [h.1]⟩

theorem goodRoot_all {r : Str} (h : goodRoot r = true) : ∀ c ∈ r, plainChar c = true := by
  simp only [goodRoot, Bool.and_eq_true, List.all_eq_true] at h
  exact h.2

theorem plainChar_spec {c : Char} (h : plainChar c = true) :
    c ≠ ':' ∧ c ≠ '\n' ∧ c ≠ plusC ∧ isWs c = false := by
  simp only [plainChar, Bool.not_eq_true', Bool.or_eq_false_iff, beq_eq_false_iff_ne] at h
  exact ⟨h.1.1.1, h.1.1.2, h.1.2, h.2⟩

theorem goodName_all {n : Str} (h : goodName n = true) :
    ∀ c ∈ n, plainChar c = true ∧ c ≠ '/' := by
  simp only [goodName, Bool.and_eq_true, List.all_eq_true, Bool.not_eq_true',
    beq_eq_false_iff_ne] at h
  intro c hc
  exact ⟨(h.2 c hc).1, (h.2 c hc).2⟩

theorem plainChar_slash : plainChar '/' = true := by decide

/-! ### Walk lemmas -/

mutual
theorem walkFrom_paths (q : Str) (e : FsEntry)
    (hq : ∀ c ∈ q, plainChar c = true) (he : goodTree e = true) :
    ∀ pn ∈ walkFrom q e,
      (∀ c ∈ pn.1, plainChar c = true) ∧ (pn.1 = q ∨ ∃ rel, pn.1 = q ++ '/' :: rel) := by
  cases e with
  | file n =>
    intro pn hpn
    simp only [walkFrom, List.mem_singleton] at hpn
    subst hpn
    exact ⟨hq, Or.inl rfl⟩
  | dir n cs =>
    intro pn hpn
    simp only [walkFrom, List.mem_cons] at hpn
    rcases hpn with rfl | hpn
    · exact ⟨hq, Or.inl rfl⟩
    · simp only [goodTree, Bool.and_eq_true] at he
      have hq' : ∀ c ∈ q ++ '/' :: n, plainChar c = true := by
        intro c hc
        rcases List.mem_append.mp hc with hc | hc
        · exact hq c hc
        · rcases List.mem_cons.mp hc with rfl | hc
          · exact plainChar_slash
          · exact (goodName_all he.1 c hc).1
      have := walkList_paths (q ++ '/' :: n) cs hq' he.2 pn hpn
      refine ⟨this.1, ?_⟩
      rcases this.2 with h | ⟨rel, h⟩
      · exact Or.inr ⟨n, h⟩
      · rw [List.append_assoc] at h
        exact Or.inr ⟨n ++ '/' :: rel, h⟩

theorem walkList_paths (q : Str) (cs : FsList)
    (hq : ∀ c ∈ q, plainChar c = true) (hc : goodList cs = true) :
    ∀ pn ∈ walkList q cs,
      (∀ c ∈ pn.1, plainChar c = true) ∧ (pn.1 = q ∨ ∃ rel, pn.1 = q ++ '/' :: rel) := by
  cases cs with
  | nil =>
    intro pn hpn
    simp [walkList] at hpn
  | cons e es =>
    intro pn hpn
    simp only [goodList, Bool.and_eq_true] at hc
    rcases List.mem_append.mp hpn with hpn | hpn
    · exact walkFrom_paths q e hq hc.1 pn hpn
    · exact walkList_paths q es hq hc.2 pn hpn
end

/-! ### Fold lemmas for `new_paths` accumulation -/

theorem mem_soFoldStep (R : Str) (acc : List Str) (e : Str × Str) (x : Str) :
    x ∈ soFoldStep R acc e ↔
      x ∈ acc ∨ (soName e.2 = true ∧ e.1 ≠ R ∧ x = e.1) := by
  unfold soFoldStep
  by_cases hcond : soName e.2 = true ∧ e.1 ≠ R ∧ e.1 ∉ acc
  · rw [if_pos hcond]
    simp only [List.mem_append, List.mem_singleton]
    constructor
    · rintro (h | rfl)
      · exact Or.inl h
      · exact Or.inr ⟨hcond.1, hcond.2.1, rfl⟩
    · rintro (h | ⟨-, -, rfl⟩)
      · exact Or.inl h
      · exact Or.inr rfl
  · rw [if_neg hcond]
    constructor
    · exact Or.inl
    · rintro (h | ⟨h1, h2, rfl⟩)
      · exact h
      · by_cases hmem : e.1 ∈ acc
        · exact hmem
        · exact absurd ⟨h1, h2, hmem⟩ hcond

theorem mem_soFold (R : Str) :
    ∀ (entries : List (Str × Str)) (acc : List Str) (x : Str),
      x ∈ entries.foldl (soFoldStep R) acc ↔
        x ∈ acc ∨ ∃ pn ∈ entries, soName pn.2 = true ∧ pn.1 ≠ R ∧ x = pn.1 := by
  intro entries
  induction entries with
  | nil => simp
  | cons e es ih =>
    intro acc x
    rw [List.foldl_cons, ih (soFoldStep R acc e) x]
    rw [mem_soFoldStep]
    constructor
    · rintro ((h | ⟨h1, h2, h3⟩) | ⟨pn, hpn, hprops⟩)
      · exact Or.inl h
      · exact Or.inr ⟨e, List.mem_cons_self e es, h1, h2, h3⟩
      · exact Or.inr ⟨pn, List.mem_cons_of_mem _ hpn, hprops⟩
    · rintro (h | ⟨pn, hpn, hprops⟩)
      · exact Or.inl (Or.inl h)
      · rcases List.mem_cons.mp hpn with rfl | hpn
        · exact Or.inl (Or.inr hprops)
        · exact Or.inr ⟨pn, hpn, hprops⟩

theorem nodup_soFold (R : Str) :
    ∀ (entries : List (Str × Str)) (acc : List Str), acc.Nodup →
      (entries.foldl (soFoldStep R) acc).Nodup := by
  intro entries
  induction entries with
  | nil => intro acc h; exact h
  | cons e es ih =>
    intro acc h
    rw [List.foldl_cons]
    apply ih
    unfold soFoldStep
    by_cases hcond : soName e.2 = true ∧ e.1 ≠ R ∧ e.1 ∉ acc
    · rw [if_pos hcond]
      simp [List.nodup_append, h, hcond.2.2]
    · rw [if_neg hcond]
      exact h

theorem gen_new_paths_nodup (R rp rn : Str) (cs : FsList) :
    (gen_new_paths R rp rn cs).Nodup :=
  nodup_soFold R _ [] List.nodup_nil

theorem mem_gen_new_paths (R rp rn : Str) (cs : FsList) (x : Str) :
    x ∈ gen_new_paths R rp rn cs ↔
      ∃ pn ∈ (rp, rn) :: walkList R cs, soName pn.2 = true ∧ pn.1 ≠ R ∧ x = pn.1 := by
  unfold gen_new_paths
  rw [mem_soFold]
  simp

theorem gen_paths_decomp {R : Str} (rp : Str) {rn : Str} {cs : FsList}
    (hR : goodRoot R = true) (hc : goodList cs = true) (hrn : soName rn = false) :
    ∀ p ∈ gen_new_paths R rp rn cs,
      ∃ rel, p = R ++ '/' :: rel ∧ (∀ c ∈ '/' :: rel, plainChar c = true) := by
  intro p hp
  rw [mem_gen_new_paths] at hp
  obtain ⟨pn, hpn, hso, hne, rfl⟩ := hp
  rcases List.mem_cons.mp hpn with rfl | hpn
  · rw [hrn] at hso
    exact Bool.noConfusion hso
  · have hw := walkList_paths R cs (goodRoot_all hR) hc pn hpn
    rcases hw.2 with h | ⟨rel, h⟩
    · exact absurd h hne
    · refine ⟨rel, h, ?_⟩
      intro c hcmem
      apply hw.1
      rw [h]
      exact List.mem_append_right _ hcmem

/-! ### Directories that directly contain a shared-object file

These predicates express the condition of the specification ("a nested
directory that directly contains a file whose name ends in `.so` or
contains `.so.`") for stating the cache properties. -/

/-- Does the sibling list contain a plain file whose name passes the
shared-object test? -/
def hasSoFileChild : FsList → Bool
  | FsList.nil => false
  | FsList.cons (FsEntry.file n) es => soName n || hasSoFileChild es
  | FsList.cons (FsEntry.dir _ _) es => hasSoFileChild es

mutual
/-- The paths of all directories strictly below `parent` that directly
contain a shared-object file. -/
def soDirsFrom (parent : Str) : FsEntry → List Str
  | FsEntry.file _ => []
  | FsEntry.dir n cs =>
    (if hasSoFileChild cs then [parent ++ '/' :: n] else [])
      ++ soDirsList (parent ++ '/' :: n) cs

/-- The union of `soDirsFrom` over a sibling list. -/
def soDirsList (parent : Str) : FsList → List Str
  | FsList.nil => []
  | FsList.cons e es => soDirsFrom parent e ++ soDirsList parent es
end

theorem hasSoFileChild_mem : ∀ {cs : FsList}, hasSoFileChild cs = true →
    ∃ n, soName n = true ∧ ∀ q, (q, n) ∈ walkList q cs := by
  intro cs
  cases cs with
  | nil => exact fun h => Bool.noConfusion h
  | cons e es =>
    intro h
    cases e with
    | file n =>
      simp only [hasSoFileChild, Bool.or_eq_true] at h
      rcases h with h | h
      · refine ⟨n, h, fun q => ?_⟩
        simp [walkList, walkFrom]
      · obtain ⟨m, hm, hmem⟩ := hasSoFileChild_mem h
        refine ⟨m, hm, fun q => ?_⟩
        simp only [walkList]
        exact List.mem_append_right _ (hmem q)
    | dir n cs' =>
      simp only [hasSoFileChild] at h
      obtain ⟨m, hm, hmem⟩ := hasSoFileChild_mem h
      refine ⟨m, hm, fun q => ?_⟩
      simp only [walkList]
      exact List.mem_append_right _ (hmem q)

mutual
theorem soDirsFrom_sub (q : Str) (e : FsEntry) :
    ∀ p ∈ soDirsFrom q e,
      ∃ m, (p, m) ∈ walkFrom q e ∧ soName m = true ∧ ∃ rel, p = q ++ '/' :: rel := by
  cases e with
  | file n => intro p hp; simp [soDirsFrom] at hp
  | dir n cs =>
    intro p hp
    simp only [soDirsFrom] at hp
    rcases List.mem_append.mp hp with hp | hp
    · by_cases hso : hasSoFileChild cs = true
      · rw [if_pos hso] at hp
        rw [List.mem_singleton] at hp
        subst hp
        obtain ⟨m, hm, hmem⟩ := hasSoFileChild_mem hso
        refine ⟨m, ?_, hm, n, rfl⟩
        simp only [walkFrom]
        exact List.mem_cons_of_mem _ (hmem (q ++ '/' :: n))
      · rw [if_neg hso] at hp
        simp at hp
    · obtain ⟨m, hmem, hm, rel, hrel⟩ := soDirsList_sub (q ++ '/' :: n) cs p hp
      refine ⟨m, ?_, hm, n ++ '/' :: rel, ?_⟩
      · simp only [walkFrom]
        exact List.mem_cons_of_mem _ hmem
      · rw [hrel, List.append_assoc]
        simp

theorem soDirsList_sub (q : Str) (cs : FsList) :
    ∀ p ∈ soDirsList q cs,
      ∃ m, (p, m) ∈ walkList q cs ∧ soName m = true ∧ ∃ rel, p = q ++ '/' :: rel := by
  cases cs with
  | nil => intro p hp; simp [soDirsList] at hp
  | cons e es =>
    intro p hp
    simp only [soDirsList] at hp
    rcases List.mem_append.mp hp with hp | hp
    · obtain ⟨m, hmem, hm, hrel⟩ := soDirsFrom_sub q e p hp
      exact ⟨m, List.mem_append_left _ hmem, hm, hrel⟩
    · obtain ⟨m, hmem, hm, hrel⟩ := soDirsList_sub q es p hp
      exact ⟨m, List.mem_append_right _ hmem, hm, hrel⟩
end

theorem append_cons_ne_self (R : Str) (c : Char) (rel : Str) : R ++ c :: rel ≠ R := by
  intro h
  have := congrArg List.length h
  simp only [List.length_append, List.length_cons] at this
  omega

theorem soDir_mem_gen_new_paths {R : Str} (rp rn : Str) {cs : FsList} {p : Str}
    (hp : p ∈ soDirsList R cs) : p ∈ gen_new_paths R rp rn cs := by
  obtain ⟨m, hmem, hm, rel, hrel⟩ := soDirsList_sub R cs p hp
  rw [mem_gen_new_paths]
  refine ⟨(p, m), List.mem_cons_of_mem _ hmem, hm, ?_, rfl⟩
  rw [hrel]
  exact append_cons_ne_self R '/' rel

/-! ### The cache pipeline -/

theorem plusC_eq : plusC = '+' := rfl

theorem replace_marker_line (B : Str) : replaceL [plusC] B ['+'] = B := by
  have hb : begins [plusC] ['+'] = true := by decide
  rw [replaceL_match B (by simp) hb]
  simp [replaceL_nil]

theorem hasSub_abs_marker {A : Str} (h : ∃ t, A = '/' :: t) : hasSub A ['+'] = false := by
  obtain ⟨t, rfl⟩ := h
  rw [hasSub_cons, hasSub_nil]
  rw [begins_head_ne (by decide)]
  rfl

theorem hasSub_abs_marker_nl {A : Str} (h : ∃ t, A = '/' :: t) :
    hasSub A ['+', '\n'] = false := by
  obtain ⟨t, rfl⟩ := h
  rw [hasSub_cons, hasSub_cons, hasSub_nil]
  rw [begins_head_ne (by decide), begins_head_ne (by decide)]
  rfl

theorem cache_pipeline (A B : Str) (paths : List Str)
    (hA : goodRoot A = true)
    (hpaths : ∀ p ∈ paths, ∃ rel, p = A ++ '/' :: rel ∧ ∀ c ∈ '/' :: rel, plainChar c = true) :
    resolveCachePath B
      (replaceL A [plusC] (replaceL [':'] ['\n'] (plusC :: ':' :: interC [':'] paths)))
      = interC [':']
          ((['+'] :: paths).map (fun l => replaceL [plusC] B (replaceL A [plusC] l))) := by
  have hAhead := goodRoot_head hA
  have hAnil : A ≠ [] := goodRoot_ne_nil hA
  have hApl := goodRoot_all hA
  have hpchars : ∀ p ∈ paths, ∀ c ∈ p, plainChar c = true := by
    intro p hp c hc
    obtain ⟨rel, rfl, hrel⟩ := hpaths p hp
    rcases List.mem_append.mp hc with hc | hc
    · exact hApl c hc
    · exact hrel c hc
  have hpne : ∀ p ∈ paths, p ≠ [] := by
    intro p hp
    obtain ⟨rel, rfl, -⟩ := hpaths p hp
    simp
  have hnlA : '\n' ∉ A := fun hm => by
    have := (plainChar_spec (hApl _ hm)).2.1
    exact this rfl
  cases paths with
  | nil =>
    have e1 : replaceL [':'] ['\n'] (plusC :: ':' :: interC [':'] []) = ['+', '\n'] := by decide
    rw [e1, replace_not_contains [plusC] _ (hasSub_abs_marker_nl hAhead)]
    unfold resolveCachePath
    have e2 : trimS ['+', '\n'] = ['+'] := by decide
    have e3 : replaceL ['\n'] [':'] ['+'] = ['+'] := by decide
    rw [e2, e3, replace_marker_line B]
    simp only [List.map_cons, List.map_nil, interC_single]
    rw [replace_not_contains [plusC] _ (hasSub_abs_marker hAhead), replace_marker_line B]
  | cons p₀ rest =>
    set paths := p₀ :: rest with hpaths_def
    have hlines_ne : paths ≠ [] := by simp [hpaths_def]
    have h1 : plusC :: ':' :: interC [':'] paths = interC [':'] (['+'] :: paths) := by
      rw [interC_cons₂ [':'] ['+'] hlines_ne, plusC_eq]
      rfl
    have hno_colon : ∀ l ∈ ['+'] :: paths, ':' ∉ l := by
      intro l hl
      rcases List.mem_cons.mp hl with rfl | hl
      · decide
      · intro hc
        exact (plainChar_spec (hpchars l hl _ hc)).1 rfl
    have h2 : replaceL [':'] ['\n'] (interC [':'] (['+'] :: paths))
        = interC ['\n'] (['+'] :: paths) :=
      replace_sep ['\n'] _ hno_colon
    have h3 : replaceL A [plusC] (interC ['\n'] (['+'] :: paths))
        = interC ['\n'] ((['+'] :: paths).map (replaceL A [plusC])) :=
      replace_intercalate A [plusC] '\n' hAnil hnlA _
    have hlines' : ∀ l' ∈ (['+'] :: paths).map (replaceL A [plusC]),
        l' ≠ [] ∧ ∀ c ∈ l', isWs c = false := by
      intro l' hl'
      obtain ⟨l, hl, rfl⟩ := List.mem_map.mp hl'
      constructor
      · apply replace_ne_nil (by simp)
        rcases List.mem_cons.mp hl with rfl | hl
        · simp
        · exact hpne l hl
      · intro c hc
        rcases mem_replace hc with hc | hc
        · rcases List.mem_cons.mp hl with rfl | hl
          · have : c = '+' := by simpa using hc
            subst this
            decide
          · exact (plainChar_spec (hpchars l hl c hc)).2.2.2
        · have : c = plusC := by simpa using hc
          subst this
          decide
    have h4 : trimS (interC ['\n'] ((['+'] :: paths).map (replaceL A [plusC])))
        = interC ['\n'] ((['+'] :: paths).map (replaceL A [plusC])) :=
      trim_interC _ (by simp) hlines'
    have hno_nl : ∀ l' ∈ (['+'] :: paths).map (replaceL A [plusC]), '\n' ∉ l' := by
      intro l' hl' hc
      obtain ⟨l, hl, rfl⟩ := List.mem_map.mp hl'
      rcases mem_replace hc with hc | hc
      · rcases List.mem_cons.mp hl with rfl | hl
        · simp at hc
        · exact (plainChar_spec (hpchars l hl _ hc)).2.1 rfl
      · simp [plusC_eq] at hc
    have h5 : replaceL ['\n'] [':'] (interC ['\n'] ((['+'] :: paths).map (replaceL A [plusC])))
        = interC [':'] ((['+'] :: paths).map (replaceL A [plusC])) :=
      replace_sep [':'] _ hno_nl
    have h6 : replaceL [plusC] B (interC [':'] ((['+'] :: paths).map (replaceL A [plusC])))
        = interC [':'] (((['+'] :: paths).map (replaceL A [plusC])).map (replaceL [plusC] B)) :=
      replace_intercalate [plusC] B ':' (by simp) (by
        intro hc
        simp [plusC_eq] at hc) _
    unfold resolveCachePath
    rw [h1, h2, h3, h4, h5, h6, List.map_map]
    rfl

/-- Resolving a freshly generated cache against the same library root
reconstructs the root followed by the recorded directories. -/
theorem resolve_same_root (A rp rn : Str) (cs : FsList)
    (hA : goodRoot A = true) (hc : goodList cs = true) (hrn : soName rn = false) :
    resolveCachePath A (gen_library_path A rp rn cs)
      = interC [':'] (A :: gen_new_paths A rp rn cs) := by
  have hdec := gen_paths_decomp rp hA hc hrn
  rw [show gen_library_path A rp rn cs
      = replaceL A [plusC]
          (replaceL [':'] ['\n'] (plusC :: ':' :: interC [':'] (gen_new_paths A rp rn cs)))
      from rfl]
  rw [cache_pipeline A A (gen_new_paths A rp rn cs) hA hdec]
  congr 1
  rw [List.map_cons]
  congr 1
  · rw [replace_not_contains [plusC] _ (hasSub_abs_marker (goodRoot_head hA)),
      replace_marker_line A]
  · conv_rhs => rw [← List.map_id (gen_new_paths A rp rn cs)]
    apply List.map_congr_left
    intro p hp
    obtain ⟨rel, hrel, hplain⟩ := hdec p hp
    have hplus : '+' ∉ p := by
      intro hm
      rw [hrel] at hm
      rcases List.mem_append.mp hm with hm | hm
      · exact (plainChar_spec (goodRoot_all hA _ hm)).2.2.1 (by rw [plusC_eq])
      · exact (plainChar_spec (hplain _ hm)).2.2.1 (by rw [plusC_eq])
    show replaceL [plusC] A (replaceL A [plusC] p) = p
    rw [show [plusC] = ['+'] from rfl]
    apply replace_roundtrip A '+' (goodRoot_ne_nil hA) _ p hplus
    intro hm
    exact (plainChar_spec (goodRoot_all hA _ hm)).2.2.1 (by rw [plusC_eq])

/-- Resolving a cache generated against root `A` under a different root
`B` re-roots each recorded directory under `B`, provided `A` does not
occur inside any recorded directory's relative part. -/
theorem resolve_reloc (A B rp rn : Str) (cs : FsList)
    (hA : goodRoot A = true)
    (hc : goodList cs = true) (hrn : soName rn = false)
    (hsub : ∀ p ∈ gen_new_paths A rp rn cs, hasSub A (p.drop A.length) = false) :
    resolveCachePath B (gen_library_path A rp rn cs)
      = interC [':']
          (B :: (gen_new_paths A rp rn cs).map (fun p => B ++ p.drop A.length)) := by
  have hdec := gen_paths_decomp rp hA hc hrn
  rw [show gen_library_path A rp rn cs
      = replaceL A [plusC]
          (replaceL [':'] ['\n'] (plusC :: ':' :: interC [':'] (gen_new_paths A rp rn cs)))
      from rfl]
  rw [cache_pipeline A B (gen_new_paths A rp rn cs) hA hdec]
  congr 1
  rw [List.map_cons]
  congr 1
  · rw [replace_not_contains [plusC] _ (hasSub_abs_marker (goodRoot_head hA)),
      replace_marker_line B]
  · apply List.map_congr_left
    intro p hp
    obtain ⟨rel, hrel, hplain⟩ := hdec p hp
    have hdrop : p.drop A.length = '/' :: rel := by
      rw [hrel]
      exact List.drop_left A ('/' :: rel)
    have hinner : replaceL A [plusC] p = '+' :: ('/' :: rel) := by
      rw [hrel, replaceL_match [plusC] (goodRoot_ne_nil hA) (begins_append_self A _),
        List.drop_left A ('/' :: rel)]
      rw [replace_not_contains [plusC] _ (by rw [← hdrop]; exact hsub p hp)]
      rfl
    show replaceL [plusC] B (replaceL A [plusC] p) = B ++ p.drop A.length
    rw [hinner]
    have hb : begins [plusC] ('+' :: '/' :: rel) = true := by
      rw [plusC_eq]
      simp [begins]
    rw [replaceL_match B (by simp) hb]
    simp only [List.length_cons, List.length_nil, List.drop_succ_cons, List.drop_zero]
    rw [replace_no_occ B (l := '/' :: rel) (by
      intro hm
      rcases List.mem_cons.mp hm with hm | hm
      · exact absurd hm.symm (by decide)
      · exact (plainChar_spec (hplain _ (List.mem_cons_of_mem _ hm))).2.2.1 (by rw [plusC_eq]))]
    rw [hdrop]

/-! ### Remaining helpers -/

theorem begins_self (p : Str) : begins p p = true := by
  have h := begins_append_self p []
  rwa [List.append_nil] at h

theorem findInterp_none {fs : Str → Bool} {root : Str} :
    ∀ {l : List Str}, (∀ c ∈ l, fs (root ++ '/' :: c) = false) →
      findInterp fs root l = none := by
  intro l
  induction l with
  | nil => intro _; rfl
  | cons i rest ih =>
    intro h
    simp only [findInterp]
    rw [if_neg (by
      rw [h i (List.mem_cons_self i rest)]
      exact Bool.noConfusion)]
    exact ih (fun c hc => h c (List.mem_cons_of_mem _ hc))

/-- Append one entry at the end of a sibling list (the cache file is
created directly inside the library root). -/
def fsSnoc : FsList → FsEntry → FsList
  | FsList.nil, e => FsList.cons e FsList.nil
  | FsList.cons x xs, e => FsList.cons x (fsSnoc xs e)

/-- The name of the cache file: "lib.path". -/
def libPathName : Str := ['l', 'i', 'b', '.', 'p', 'a', 't', 'h']

theorem walkList_snoc (q : Str) (e : FsEntry) :
    ∀ cs : FsList, walkList q (fsSnoc cs e) = walkList q cs ++ walkFrom q e := by
  intro cs
  cases cs with
  | nil => simp [fsSnoc, walkList]
  | cons x xs =>
    simp only [fsSnoc, walkList]
    rw [walkList_snoc q e xs, List.append_assoc]

/-! ### Claim C2 -/

/-- C2 counterexample: the claim asserts `dirname "a" = "."`, but the
single-segment branch of the source is empty (its `return "."` is
commented out), so `dirname "a"` is the empty string. -/
theorem c2_counterexample : dirname ['a'] = [] ∧ dirname ['a'] ≠ ['.'] := by decide

/-- C2 (amended): `dirname "/a" = "/"`, `dirname "a" = ""` (not `"."`),
`dirname "./a/b" = "./a"`, and every path of at least two `/`-separated
segments that does not start with `/`, `.` or `~` is prefixed with `.`
(the result is `./` followed by the joined leading segments). -/
theorem c2_dirname_amended :
    dirname ['/', 'a'] = ['/']
  ∧ dirname ['a'] = []
  ∧ dirname ['.', '/', 'a', '/', 'b'] = ['.', '/', 'a']
  ∧ ∀ path : Str, 2 ≤ (splitC '/' path).length →
      startsC '/' path = false → startsC '.' path = false → startsC '~' path = false →
      dirname path = '.' :: '/' :: interC ['/'] (splitC '/' path).dropLast := by
  refine ⟨by decide, by decide, by decide, ?_⟩
  intro path hlen h1 h2 h3
  have hpne : path ≠ [] := by
    intro h0
    subst h0
    simp [splitC] at hlen
  obtain ⟨x, y, rest, hps⟩ : ∃ x y rest, splitC '/' path = x :: y :: rest := by
    cases hps : splitC '/' path with
    | nil => exact absurd hps (splitC_ne_nil '/' path)
    | cons x t =>
      cases t with
      | nil => rw [hps] at hlen; simp at hlen
      | cons y rest => exact ⟨x, y, rest, rfl⟩
  simp only [dirname]
  rw [if_neg (by
    rintro (hl | hl)
    · rw [hps] at hl; simp at hl
    · exact hpne hl)]
  rw [if_pos ⟨by rw [h1]; exact Bool.noConfusion, by rw [h2]; exact Bool.noConfusion,
    by rw [h3]; exact Bool.noConfusion⟩]
  rw [hps]
  rw [show (['.'] :: x :: y :: rest).dropLast = ['.'] :: (x :: y :: rest).dropLast from
    List.dropLast_cons₂]
  rw [interC_cons₂ ['/'] ['.'] (by
    rw [show (x :: y :: rest).dropLast = x :: (y :: rest).dropLast from List.dropLast_cons₂]
    simp)]
  rfl

/-! ### Claim C6 -/

/-- C6: `add_to_env` sets an unset or empty variable to the new value,
leaves the variable unchanged when the new value already occurs as a
substring of the current value, otherwise prepends `new:old`; in
particular the operation is idempotent. -/
theorem c6_add_to_env (oldVal newVal : Str) :
    (add_to_env [] newVal = newVal)
  ∧ (oldVal ≠ [] → hasSub newVal oldVal = true → add_to_env oldVal newVal = oldVal)
  ∧ (oldVal ≠ [] → hasSub newVal oldVal = false →
      add_to_env oldVal newVal = newVal ++ ':' :: oldVal)
  ∧ add_to_env (add_to_env oldVal newVal) newVal = add_to_env oldVal newVal := by
  refine ⟨by simp [add_to_env], ?_, ?_, ?_⟩
  · intro h0 h1
    unfold add_to_env
    rw [if_neg h0, if_neg (by rw [h1]; simp)]
  · intro h0 h1
    unfold add_to_env
    rw [if_neg h0, if_pos (by rw [h1]; exact Bool.noConfusion)]
  · by_cases h0 : oldVal = []
    · subst h0
      rw [show add_to_env [] newVal = newVal by simp [add_to_env]]
      by_cases hn : newVal = []
      · subst hn
        simp [add_to_env]
      · unfold add_to_env
        rw [if_neg hn, if_neg (by
          rw [hasSub_of_begins (begins_self newVal)]
          simp)]
    · by_cases h1 : hasSub newVal oldVal = true
      · have hstep : add_to_env oldVal newVal = oldVal := by
          unfold add_to_env
          rw [if_neg h0, if_neg (by rw [h1]; simp)]
        rw [hstep]
        exact hstep
      · have h1' : hasSub newVal oldVal = false := by simpa using h1
        have hstep : add_to_env oldVal newVal = newVal ++ ':' :: oldVal := by
          unfold add_to_env
          rw [if_neg h0, if_pos (by rw [h1']; exact Bool.noConfusion)]
        rw [hstep]
        unfold add_to_env
        rw [if_neg (by simp), if_neg (by
          rw [hasSub_of_begins (begins_append_self newVal _)]
          simp), ← hstep]

/-- C6 witness: concrete evaluations of the three branches and the
idempotence property. -/
theorem c6_witness :
    add_to_env [] ['a'] = ['a']
  ∧ add_to_env ['x', 'a', 'y'] ['a'] = ['x', 'a', 'y']
  ∧ add_to_env ['b'] ['a'] = ['a', ':', 'b']
  ∧ add_to_env (add_to_env ['b'] ['a']) ['a'] = add_to_env ['b'] ['a'] :=
  ⟨(c6_add_to_env ['b'] ['a']).1,
   (c6_add_to_env ['x', 'a', 'y'] ['a']).2.1 (by decide) (by decide),
   (c6_add_to_env ['b'] ['a']).2.2.1 (by decide) (by decide),
   (c6_add_to_env ['b'] ['a']).2.2.2⟩

/-! ### Claim C8 -/

/-- C8 counterexample: a 5-byte file whose first four bytes are not the
ELF magic is not reported as an error (`none` models the error case);
the probe returns the 64-bit classification `some false` instead. -/
theorem c8_counterexample :
    is_elf32 (some [0, 0, 0, 0, 0]) = some false
  ∧ is_elf32 (some [0, 0, 0, 0, 0]) ≠ none := by decide

/-- C8 (amended): `is_elf32` errors only when the file cannot be opened
or has fewer than 5 bytes; a readable non-ELF file yields the 64-bit
classification `some false` rather than a `NotElf` error, and an ELF
file is classified by its fifth byte. -/
theorem c8_is_elf32_amended (bytes : List Nat) :
    (is_elf32 none = none)
  ∧ (bytes.length < 5 → is_elf32 (some bytes) = none)
  ∧ (5 ≤ bytes.length → bytes.take 4 ≠ elfMagic → is_elf32 (some bytes) = some false)
  ∧ (5 ≤ bytes.length → bytes.take 4 = elfMagic →
      is_elf32 (some bytes) = some (decide (bytes.getD 4 0 = 1))) := by
  refine ⟨rfl, ?_, ?_, ?_⟩
  · intro h
    simp [is_elf32, h]
  · intro h5 hm
    simp only [is_elf32]
    rw [if_neg (by omega), if_pos hm]
  · intro h5 hm
    simp only [is_elf32]
    rw [if_neg (by omega), if_neg (by simp [hm])]

/-- C8 witness: the amended theorem evaluated on concrete byte strings:
a short file errors, a non-ELF file classifies as 64-bit, an ELF32
header classifies as 32-bit. -/
theorem c8_witness :
    is_elf32 (some [0x7f, 0x45]) = none
  ∧ is_elf32 (some [1, 2, 3, 4, 5]) = some false
  ∧ is_elf32 (some [0x7f, 0x45, 0x4c, 0x46, 1]) = some true :=
  ⟨(c8_is_elf32_amended [0x7f, 0x45]).2.1 (by decide),
   (c8_is_elf32_amended [1, 2, 3, 4, 5]).2.2.1 (by decide) (by decide),
   (c8_is_elf32_amended [0x7f, 0x45, 0x4c, 0x46, 1]).2.2.2 (by decide) (by decide)⟩

/-! ### Claim C10 -/

/-- C10: a present but empty `SHARUN_LDNAME` yields an empty candidate
list — the architecture defaults are not consulted — so interpreter
resolution fails for every filesystem and every library root, even one
that contains a default loader. -/
theorem c10_empty_override :
    interpreterCandidates (some []) = []
  ∧ (∀ (fs : Str → Bool) (root : Str), get_interpreter (some []) fs root = none)
  ∧ get_interpreter (some []) (fun _ => true) ldGlibc = none := by
  refine ⟨by simp [interpreterCandidates], fun fs root => rfl, rfl⟩

/-- C2 witness: the universal clause of the amended claim evaluated at
the two-segment relative path "a/b". -/
theorem c2_witness :
    dirname ['a', '/', 'b'] = '.' :: '/' :: interC ['/'] (splitC '/' ['a', '/', 'b']).dropLast :=
  c2_dirname_amended.2.2.2 ['a', '/', 'b'] (by decide) (by decide) (by decide) (by decide)

/-! ### Claim C1 -/

/-- C1: a present, non-empty `SHARUN_LDNAME` override is the sole
candidate tried; otherwise the x86_64 defaults are tried in order
(glibc name, musl name, legacy name); `get_interpreter` returns the
first candidate that exists directly inside the library root and fails
when none exists; and `main` treats that failure as fatal (no exec is
reached). -/
theorem c1_get_interpreter (s root : Str) (fs : Str → Bool) (e : LaunchEnv) (is32 : Bool)
    (hs : s ≠ [])
    (helf : is_elf32 e.binBytes = some is32)
    (hint : get_interpreter e.ldname e.fsExists
      (if is32 = true then e.sharedLib32 else e.sharedLib) = none) :
    interpreterCandidates (some s) = [s]
  ∧ interpreterCandidates none = [ldGlibc, ldMusl, ldLegacy]
  ∧ get_interpreter (some s) fs root
      = (if fs (root ++ '/' :: s) = true then some (root ++ '/' :: s) else none)
  ∧ get_interpreter none fs root
      = (if fs (root ++ '/' :: ldGlibc) = true then some (root ++ '/' :: ldGlibc)
         else if fs (root ++ '/' :: ldMusl) = true then some (root ++ '/' :: ldMusl)
         else if fs (root ++ '/' :: ldLegacy) = true then some (root ++ '/' :: ldLegacy)
         else none)
  ∧ runLaunch e = MainResult.fatalInterpreterNotFound := by
  refine ⟨by simp [interpreterCandidates, hs], rfl, ?_, rfl, ?_⟩
  · simp [get_interpreter, interpreterCandidates, hs, findInterp]
  · simp only [runLaunch, helf]
    rw [hint]

/-- C1 witness: a non-empty override, a filesystem with no loader, and
a launch environment whose interpreter resolution fails. -/
theorem c1_witness :
    runLaunch (LaunchEnv.mk none (fun _ => false) ['/', 'l'] ['/', 'm'] ['/', 'b']
        (some [0x7f, 0x45, 0x4c, 0x46, 2]) none none false ['/', 'z'] [])
      = MainResult.fatalInterpreterNotFound :=
  (c1_get_interpreter ['x'] ['/', 'r'] (fun _ => false)
    (LaunchEnv.mk none (fun _ => false) ['/', 'l'] ['/', 'm'] ['/', 'b']
      (some [0x7f, 0x45, 0x4c, 0x46, 2]) none none false ['/', 'z'] [])
    false (by decide) (by decide) (by decide)).2.2.2.2

/-! ### Claim C7 -/

/-- C7: a 32-bit target selects the 32-bit library root; when no
interpreter candidate exists there, `main` ends in the fatal
interpreter-not-found outcome (exit 1) and no exec backend is ever
reached, regardless of what the 64-bit root contains. -/
theorem c7_elf32_no_interp (e : LaunchEnv)
    (h32 : is_elf32 e.binBytes = some true)
    (hno : ∀ c ∈ interpreterCandidates e.ldname,
      e.fsExists (e.sharedLib32 ++ '/' :: c) = false) :
    runLaunch e = MainResult.fatalInterpreterNotFound := by
  have hget : get_interpreter e.ldname e.fsExists e.sharedLib32 = none :=
    findInterp_none hno
  simp only [runLaunch, h32, if_true]
  rw [hget]

/-- C7 witness: a 32-bit ELF target, a loader present only under the
64-bit root: the launch still fails fatally. -/
theorem c7_witness :
    runLaunch (LaunchEnv.mk none (fun p => decide (p = ['/', 'l', '/'] ++ ldGlibc))
        ['/', 'l'] ['/', 'm'] ['/', 'b'] (some [0x7f, 0x45, 0x4c, 0x46, 1])
        none none false ['/', 'z'] [])
      = MainResult.fatalInterpreterNotFound :=
  c7_elf32_no_interp _ (by decide) (by decide)

/-! ### Claim C9 -/

/-- C9: with the `pydata` ELF section present, the launch uses the
direct `execve` backend and the `--argv0` value is the target binary's
own path; without it, the emulated `userland_execve` backend is used
and the `--argv0` value is the caller's invocation path; every other
element of the interpreter argument vector (interpreter path,
`--library-path`, search path, `--argv0` flag, optional `--preload`
with its space-joined value, target path, remaining arguments) is
identical in the two cases. -/
theorem c9_backend_argv (ld : Option Str) (fs : Str → Bool) (sl sl32 binPath : Str)
    (bytes : Option (List Nat)) (cache preC : Option Str) (a0 : Str) (args : List Str)
    (is32 : Bool) (interp : Str)
    (h1 : is_elf32 bytes = some is32)
    (h2 : get_interpreter ld fs (if is32 = true then sl32 else sl) = some interp) :
    runLaunch (LaunchEnv.mk ld fs sl sl32 binPath bytes cache preC true a0 args)
      = MainResult.exec ExecBackend.execve
          ([interp, libraryPathFlag, launchLibPath (if is32 = true then sl32 else sl) cache,
            argv0Flag, binPath] ++ (preloadArgs preC ++ [binPath] ++ args))
  ∧ runLaunch (LaunchEnv.mk ld fs sl sl32 binPath bytes cache preC false a0 args)
      = MainResult.exec ExecBackend.userland
          ([interp, libraryPathFlag, launchLibPath (if is32 = true then sl32 else sl) cache,
            argv0Flag, a0] ++ (preloadArgs preC ++ [binPath] ++ args)) := by
  constructor <;>
  · simp only [runLaunch, h1]
    rw [h2]
    simp [chooseBackend, buildInterpreterArgs]

/-- C9 witness: a concrete launch environment evaluated with the
section flag set, yielding the `execve` backend and the target path as
the spoofed argv0. -/
theorem c9_witness :
    runLaunch (LaunchEnv.mk none (fun p => decide (p = ['/', 'l', '/'] ++ ldGlibc))
        ['/', 'l'] ['/', 'm'] ['/', 'b'] (some [0x7f, 0x45, 0x4c, 0x46, 2])
        (some ['+', '\n']) (some ['x']) true ['/', 'z'] [['q']])
      = MainResult.exec ExecBackend.execve
          ([['/', 'l', '/'] ++ ldGlibc, libraryPathFlag,
            launchLibPath (if false = true then ['/', 'm'] else ['/', 'l']) (some ['+', '\n']),
            argv0Flag, ['/', 'b']]
            ++ (preloadArgs (some ['x']) ++ [['/', 'b']] ++ [['q']])) :=
  (c9_backend_argv none (fun p => decide (p = ['/', 'l', '/'] ++ ldGlibc))
    ['/', 'l'] ['/', 'm'] ['/', 'b'] (some [0x7f, 0x45, 0x4c, 0x46, 2])
    (some ['+', '\n']) (some ['x']) ['/', 'z'] [['q']] false
    (['/', 'l', '/'] ++ ldGlibc) (by decide) (by decide)).1

/-! ### Claim C4 -/

/-- C4: cache regeneration is idempotent.  `gen_library_path` is a pure
function of the tree, and the only change the first run makes to the
tree is the `lib.path` file it writes directly inside the library root;
that name fails the shared-object test and its parent is the root, so a
second run over the updated tree writes byte-identical content. -/
theorem c4_gen_idempotent (R rp rn : Str) (cs : FsList) :
    gen_library_path R rp rn (fsSnoc cs (FsEntry.file libPathName))
      = gen_library_path R rp rn cs := by
  suffices h : gen_new_paths R rp rn (fsSnoc cs (FsEntry.file libPathName))
      = gen_new_paths R rp rn cs by
    unfold gen_library_path
    rw [h]
  unfold gen_new_paths
  rw [walkList_snoc]
  rw [show (rp, rn) :: (walkList R cs ++ walkFrom R (FsEntry.file libPathName))
      = ((rp, rn) :: walkList R cs) ++ [(R, libPathName)] from by simp [walkFrom]]
  rw [List.foldl_append]
  simp only [List.foldl_cons, List.foldl_nil]
  unfold soFoldStep
  rw [if_neg (by rintro ⟨-, h, -⟩; exact h rfl)]

/-! ### Claim C3 -/

theorem count_one_of_nodup_mem {l : List Str} {a : Str} (hn : l.Nodup) (hm : a ∈ l) :
    l.count a = 1 := by
  induction l with
  | nil => simp at hm
  | cons b t ih =>
    rcases List.mem_cons.mp hm with rfl | hm2
    · rw [List.count_cons_self]
      have ht : a ∉ t := (List.nodup_cons.mp hn).1
      rw [List.count_eq_zero.mpr ht]
    · rw [List.count_cons_of_ne (by rintro rfl; exact (List.nodup_cons.mp hn).1 hm2) t]
      exact ih (List.nodup_cons.mp hn).2 hm2

/-- C3: for a well-formed library root and tree, every nested directory
that directly contains a shared-object file appears exactly once in the
colon-joined search path obtained by regenerating the cache and then
resolving it, no matter how many shared-object files the directory
contains. -/
theorem c3_so_dir_once (R rp rn : Str) (cs : FsList) (p : Str)
    (hR : goodRoot R = true) (hc : goodList cs = true) (hrn : soName rn = false)
    (hp : p ∈ soDirsList R cs) :
    (splitC ':' (resolveCachePath R (gen_library_path R rp rn cs))).count p = 1 := by
  rw [resolve_same_root R rp rn cs hR hc hrn]
  have hdec := gen_paths_decomp rp hR hc hrn
  have hmem : p ∈ gen_new_paths R rp rn cs := soDir_mem_gen_new_paths rp rn hp
  rw [splitC_interC (R :: gen_new_paths R rp rn cs) (by simp) (by
    intro l hl hcol
    rcases List.mem_cons.mp hl with rfl | hl
    · exact (plainChar_spec (goodRoot_all hR _ hcol)).1 rfl
    · obtain ⟨rel, rfl, hplain⟩ := hdec l hl
      rcases List.mem_append.mp hcol with hm | hm
      · exact (plainChar_spec (goodRoot_all hR _ hm)).1 rfl
      · exact (plainChar_spec (hplain _ hm)).1 rfl)]
  obtain ⟨m, -, -, rel, hrel⟩ := soDirsList_sub R cs p hp
  rw [List.count_cons_of_ne (by rw [hrel]; exact append_cons_ne_self R '/' rel)]
  exact count_one_of_nodup_mem (gen_new_paths_nodup R rp rn cs) hmem

/-- The tree used by the C3 witness: a single nested directory `app`
holding two shared-object files. -/
def c3tree : FsList :=
  FsList.cons (FsEntry.dir ['a', 'p', 'p']
    (FsList.cons (FsEntry.file ['x', '.', 's', 'o'])
      (FsList.cons (FsEntry.file ['y', '.', 's', 'o']) FsList.nil))) FsList.nil

/-- C3 witness: the nested directory `/r/lib/app`, which holds two
shared-object files, appears exactly once in the resolved search path. -/
theorem c3_witness :
    (splitC ':' (resolveCachePath ['/', 'r', '/', 'l', 'i', 'b']
        (gen_library_path ['/', 'r', '/', 'l', 'i', 'b'] ['/', 'r'] ['l', 'i', 'b'] c3tree))).count
      ['/', 'r', '/', 'l', 'i', 'b', '/', 'a', 'p', 'p'] = 1 :=
  c3_so_dir_once ['/', 'r', '/', 'l', 'i', 'b'] ['/', 'r'] ['l', 'i', 'b'] c3tree
    ['/', 'r', '/', 'l', 'i', 'b', '/', 'a', 'p', 'p']
    (by decide) (by decide) (by decide) (by decide)

/-! ### Claim C5 -/

/-- The tree used by the C5 counterexample: the library root `/a`
contains `a/b/l.so`, so the recorded directory `/a/a/b` contains the
root's text `/a` inside its relative part. -/
def c5tree : FsList :=
  FsList.cons (FsEntry.dir ['a']
    (FsList.cons (FsEntry.dir ['b']
      (FsList.cons (FsEntry.file ['l', '.', 's', 'o']) FsList.nil)) FsList.nil)) FsList.nil

/-- C5 counterexample: the cache generated against root `/a` records
the directory `/a/a/b`; the marker replacement also rewrites the second
occurrence of `/a`, so resolving the unchanged cache against the new
root `/B` yields `/B/B/b` instead of the re-rooted path `/B/a/b` —
marker substitution does not round-trip for every tree. -/
theorem c5_counterexample :
    gen_new_paths ['/', 'a'] ['/'] ['a'] c5tree = [['/', 'a', '/', 'a', '/', 'b']]
  ∧ splitC ':' (resolveCachePath ['/', 'B'] (gen_library_path ['/', 'a'] ['/'] ['a'] c5tree))
      = [['/', 'B'], ['/', 'B', '/', 'B', '/', 'b']]
  ∧ splitC ':' (resolveCachePath ['/', 'B'] (gen_library_path ['/', 'a'] ['/'] ['a'] c5tree))
      ≠ [['/', 'B'], ['/', 'B', '/', 'a', '/', 'b']] := by decide

/-- C5 (amended): for a well-formed tree whose recorded directories do
not contain the original root's text inside their relative parts,
resolving the unchanged cache against a new root `B` yields exactly the
recorded subdirectory paths re-rooted under `B` (preceded by `B`
itself). -/
theorem c5_reloc_amended (A B rp rn : Str) (cs : FsList)
    (hA : goodRoot A = true) (hB : goodRoot B = true)
    (hc : goodList cs = true) (hrn : soName rn = false)
    (hsub : ∀ p ∈ gen_new_paths A rp rn cs, hasSub A (p.drop A.length) = false) :
    splitC ':' (resolveCachePath B (gen_library_path A rp rn cs))
      = B :: (gen_new_paths A rp rn cs).map (fun p => B ++ p.drop A.length) := by
  rw [resolve_reloc A B rp rn cs hA hc hrn hsub]
  have hdec := gen_paths_decomp rp hA hc hrn
  apply splitC_interC _ (by simp)
  intro l hl hcol
  rcases List.mem_cons.mp hl with rfl | hl
  · exact (plainChar_spec (goodRoot_all hB _ hcol)).1 rfl
  · obtain ⟨p, hp, rfl⟩ := List.mem_map.mp hl
    obtain ⟨rel, hrel, hplain⟩ := hdec p hp
    rcases List.mem_append.mp hcol with hm | hm
    · exact (plainChar_spec (goodRoot_all hB _ hm)).1 rfl
    · rw [hrel, List.drop_left] at hm
      exact (plainChar_spec (hplain _ hm)).1 rfl

/-- The tree used by the C5 witness: root `/r` with `app/x.so`. -/
def c5wtree : FsList :=
  FsList.cons (FsEntry.dir ['a', 'p', 'p']
    (FsList.cons (FsEntry.file ['x', '.', 's', 'o']) FsList.nil)) FsList.nil

/-- C5 witness: relocating from `/r` to `/new` re-roots the recorded
directory `/r/app` to `/new/app`. -/
theorem c5_witness :
    splitC ':' (resolveCachePath ['/', 'n', 'e', 'w']
        (gen_library_path ['/', 'r'] ['/'] ['r'] c5wtree))
      = ['/', 'n', 'e', 'w']
        :: (gen_new_paths ['/', 'r'] ['/'] ['r'] c5wtree).map
            (fun p => ['/', 'n', 'e', 'w'] ++ p.drop (['/', 'r'] : Str).length) :=
  c5_reloc_amended ['/', 'r'] ['/', 'n', 'e', 'w'] ['/'] ['r'] c5wtree
    (by decide) (by decide) (by decide) (by decide) (by decide)
